import Mathlib

/-
Verification of the Zobrist hashing core of the repository (src/zobrist.rs).

The embedding models the 64-bit hash value type as a structure wrapping a
natural number (kept below 2^64 where it matters), and the lazily built
constant table as a pure build function over an explicit stream of random
draws.  Machine operations that cannot overflow (XOR, AND) are plain Nat
bitwise operations; bitwise complement on u64 is XOR with the all-ones mask.
-/

/-- Numeric value of the all-ones 64-bit mask, that is u64::MAX. -/
def u64Mask : Nat := 2 ^ 64 - 1

/-- Embedding of the struct Key(u64) (src/zobrist.rs line 9): a 64-bit hash
value represented by its raw value. -/
structure Key where
  val : Nat

/-- Embedding of the constant Key::ZERO (src/zobrist.rs line 12). -/
def Key.ZERO : Key := ⟨0⟩

/-- Embedding of the constant Key::COLOR (src/zobrist.rs line 13), the
reserved side-to-move toggle with raw value 1. -/
def Key.COLOR : Key := ⟨1⟩

/-- Embedding of Key::value (src/zobrist.rs lines 15-17), the raw-value
accessor. -/
def Key.value (k : Key) : Nat := k.val

/-- Embedding of the Not implementation for Key (src/zobrist.rs lines 20-26):
bitwise complement of the wrapped u64, written as XOR with the all-ones
64-bit mask. -/
def Key.not (k : Key) : Key := ⟨u64Mask ^^^ k.val⟩

/-- Embedding of the BitAnd implementation for Key (src/zobrist.rs
lines 28-34). -/
def Key.bitand (k r : Key) : Key := ⟨k.val &&& r.val⟩

/-- Embedding of the BitXor implementation for Key (src/zobrist.rs
lines 36-42), the hash combining operation. -/
def Key.bitxor (k r : Key) : Key := ⟨k.val ^^^ r.val⟩

/-- Embedding of the BitXorAssign implementation for Key (src/zobrist.rs
lines 44-48): the in-place update is modelled by returning the key holding
the updated stored value. -/
def Key.bitxorAssign (k r : Key) : Key := ⟨k.val ^^^ r.val⟩

/-- Claim C1: XOR on Key, the sole combining operation, is commutative,
associative, and self-inverse, so applying the same constant twice restores
the prior hash exactly. -/
theorem key_bitxor_comm_assoc_self_inverse (x y z : Key) :
    Key.bitxor x y = Key.bitxor y x
    ∧ Key.bitxor (Key.bitxor x y) z = Key.bitxor x (Key.bitxor y z)
    ∧ Key.bitxor (Key.bitxor x y) y = x := by
  obtain ⟨xv⟩ := x
  obtain ⟨yv⟩ := y
  obtain ⟨zv⟩ := z
  refine ⟨?_, ?_, ?_⟩
  · simp only [Key.bitxor, Key.mk.injEq]
    exact Nat.xor_comm xv yv
  · simp only [Key.bitxor, Key.mk.injEq]
    exact Nat.xor_assoc xv yv zv
  · simp only [Key.bitxor, Key.mk.injEq]
    exact Nat.xor_cancel_right yv xv

/-- Claim C7: two Key values are equal exactly when their underlying raw
64-bit values are equal. -/
theorem key_eq_iff_value_eq (x y : Key) : x = y ↔ Key.value x = Key.value y := by
  obtain ⟨xv⟩ := x
  obtain ⟨yv⟩ := y
  simp [Key.value]

/-- Claim C8: every Key operation is total over the fixed-width 64-bit
domain: on in-range inputs, XOR, AND, complement and XOR-assign always
return an in-range Key, and the raw-value accessor always returns the
stored value; no operation has an error case. -/
theorem key_ops_total (x y : Key) (hx : x.val < 2 ^ 64) (hy : y.val < 2 ^ 64) :
    (Key.bitxor x y).val < 2 ^ 64
    ∧ (Key.bitand x y).val < 2 ^ 64
    ∧ (Key.not x).val < 2 ^ 64
    ∧ (Key.bitxorAssign x y).val < 2 ^ 64
    ∧ Key.value x = x.val := by
  have hmask : u64Mask < 2 ^ 64 := by decide
  refine ⟨Nat.xor_lt_two_pow hx hy, ?_, Nat.xor_lt_two_pow hmask hx, Nat.xor_lt_two_pow hx hy, rfl⟩
  calc (Key.bitand x y).val ≤ x.val := Nat.and_le_left
    _ < 2 ^ 64 := hx

/-- Witness for C8 at the concrete keys 0 and 1. -/
theorem key_ops_total_witness :
    (Key.ZERO.val < 2 ^ 64 ∧ Key.COLOR.val < 2 ^ 64)
    ∧ (Key.bitxor Key.ZERO Key.COLOR).val < 2 ^ 64 := by
  have h := key_ops_total Key.ZERO Key.COLOR (by decide) (by decide)
  exact ⟨⟨by decide, by decide⟩, h.1⟩

/-- Claim C9: the assignment-combine on Key is equivalent to the plain XOR
combine followed by replacing the stored value. -/
theorem key_bitxorAssign_eq_bitxor (x y : Key) :
    Key.bitxorAssign x y = Key.bitxor x y := rfl

/-- Claim C10: Key.ZERO has raw value 0 and is a two-sided identity of the
XOR combining operation. -/
theorem key_zero_identity :
    Key.ZERO.val = 0 ∧ ∀ k : Key, Key.bitxor k Key.ZERO = k ∧ Key.bitxor Key.ZERO k = k := by
  refine ⟨rfl, ?_⟩
  intro k
  obtain ⟨kv⟩ := k
  constructor
  · simp only [Key.bitxor, Key.ZERO, Key.mk.injEq]
    exact Nat.xor_zero kv
  · simp only [Key.bitxor, Key.ZERO, Key.mk.injEq]
    exact Nat.zero_xor kv

/-- Modelled from the spec: the size of the finite Square domain
(Square::NUM, defined outside this core's sources); reference value 81 for
the 9x9 board. -/
def Square.NUM : Nat := 81

/-- Modelled from the spec: the size of the Color domain, exactly two values
(Color::NUM, defined outside this core's sources). -/
def Color.NUM : Nat := 2

/-- Modelled from the spec: the size of the full PieceType domain usable on
the board (PieceType::NUM, defined outside this core's sources); reference
value 14. -/
def PieceType.NUM : Nat := 14

/-- Modelled from the spec: the size of the hand-eligible subset of
PieceType (PieceType::NUM_HAND, defined outside this core's sources);
reference value 7.  A hand-eligible piece type is identified with its hand
index in [0, 7), the value the external Hand::PIECE_TYPE_INDEX array maps
it to. -/
def PieceType.NUM_HAND : Nat := 7

/-- Table shape: a three-index array of keys, modelled as a total function;
index bounds are carried by the theorems. -/
def Table3 : Type := Nat → Nat → Nat → Key

/-- Embedding of struct ZobristTable (src/zobrist.rs lines 50-53), with the
two constant arrays. -/
structure ZobristTable where
  board : Table3
  hands : Table3

/-- Embedding of ZobristTable::MAX_HAND_NUM (src/zobrist.rs line 56). -/
def ZobristTable.MAX_HAND_NUM : Nat := 18

/-- Embedding of ZobristTable::hand (src/zobrist.rs lines 60-62).  Rust
indexes the fixed-size arrays directly; an out-of-range index panics, which
is modelled by returning none.  The color and hand piece type are
in range by construction in Rust (their types are enumerations), while the
count is a runtime u8 value checked only by the array bound. -/
def ZobristTable.hand (t : ZobristTable) (c pt num : Nat) : Option Key :=
  if c < Color.NUM ∧ pt < PieceType.NUM_HAND ∧ num < ZobristTable.MAX_HAND_NUM + 1 then
    some (t.hands c pt num)
  else
    none

/-- Modelled from the spec: the scramble step of a SplitMix64 draw.  The
actual generator, StdRng::seed_from_u64(2022), comes from the external rand
crate and is not part of this repository's sources; the spec fixes only
that a standard deterministic pseudo-random generator is seeded with the
constant 2022 and drawn sequentially, so the draw sequence is modelled by
the SplitMix64 stream of that seed. -/
def splitmix64Mix (s : Nat) : Nat :=
  let z1 := ((s ^^^ (s >>> 30)) * 0xBF58476D1CE4E5B9) % 2 ^ 64
  let z2 := ((z1 ^^^ (z1 >>> 27)) * 0x94D049BB133111EB) % 2 ^ 64
  z2 ^^^ (z2 >>> 31)

/-- Modelled from the spec: the internal state of the seeded generator
before the (n+1)-th draw (see splitmix64Mix). -/
def stdRngState (seed : Nat) : Nat → Nat
  | 0 => seed % 2 ^ 64
  | n + 1 => (stdRngState seed n + 0x9E3779B97F4A7C15) % 2 ^ 64

/-- Modelled from the spec: the sequence of 64-bit draws of the fixed-seed
generator; stdRngStream seed n is the n-th draw (see splitmix64Mix). -/
def stdRngStream (seed : Nat) (n : Nat) : Nat :=
  splitmix64Mix (stdRngState seed (n + 1))

/-- One stored constant: a fresh 64-bit draw with the side bit cleared,
embedding the expression Key(rng.gen()) & !Key::COLOR (src/zobrist.rs
lines 72 and 79).  Here r is the generator's draw sequence and k the index
of the current draw. -/
def draw (r : Nat → Nat) (k : Nat) : Key :=
  Key.bitand (Key.mk (r k % 2 ^ 64)) (Key.not Key.COLOR)

/-- Functional update of one entry of a three-index table. -/
def update3 (t : Table3) (i j l : Nat) (v : Key) : Table3 :=
  fun a b c => if a = i ∧ b = j ∧ c = l then v else t a b c

/-- Innermost loop of the table initializer (src/zobrist.rs lines 71-73 and
78-80): for each index l below P, store the next draw at entry (i, j, l)
and advance the generator.  The state is the table together with the index
of the next draw. -/
def fillInner (r : Nat → Nat) (i j P : Nat) (st : Table3 × Nat) : Table3 × Nat :=
  (List.range P).foldl (fun st l => (update3 st.1 i j l (draw r st.2), st.2 + 1)) st

/-- Middle loop of the table initializer: iterate fillInner for each middle
index j below C. -/
def fillMid (r : Nat → Nat) (i C P : Nat) (st : Table3 × Nat) : Table3 × Nat :=
  (List.range C).foldl (fun st j => fillInner r i j P st) st

/-- Outer loop of the table initializer: iterate fillMid for each outer
index i below S. -/
def fillLoop (r : Nat → Nat) (S C P : Nat) (st : Table3 × Nat) : Table3 × Nat :=
  (List.range S).foldl (fun st i => fillMid r i C P st) st

/-- Embedding of the ZOBRIST_TABLE initializer body (src/zobrist.rs lines
65-84): both arrays start at Key::ZERO, the board array is filled first by
the triple loop over (square, color, piece type), then the hand array by
the triple loop over (color, hand piece type, count in 0..=MAX_HAND_NUM),
drawing from the single generator stream r throughout. -/
def buildTable (r : Nat → Nat) : ZobristTable :=
  let board0 : Table3 := fun _ _ _ => Key.ZERO
  let hands0 : Table3 := fun _ _ _ => Key.ZERO
  let stBoard := fillLoop r Square.NUM Color.NUM PieceType.NUM (board0, 0)
  let stHands :=
    fillLoop r Color.NUM PieceType.NUM_HAND (ZobristTable.MAX_HAND_NUM + 1) (hands0, stBoard.2)
  ZobristTable.mk stBoard.1 stHands.1

/-- Embedding of the ZOBRIST_TABLE singleton (src/zobrist.rs lines 65-84):
the table built from the fixed-seed-2022 draw stream.  The lazy once-only
initialization has no observable effect in a pure model. -/
def ZOBRIST_TABLE : ZobristTable := buildTable (stdRngStream 2022)
/-- Unfolding step of the innermost loop. -/
theorem fillInner_succ (r : Nat → Nat) (i j P : Nat) (st : Table3 × Nat) :
    fillInner r i j (P + 1) st =
      (update3 (fillInner r i j P st).1 i j P (draw r (fillInner r i j P st).2),
        (fillInner r i j P st).2 + 1) := by
  unfold fillInner
  rw [List.range_succ, List.foldl_append, List.foldl_cons, List.foldl_nil]

/-- Closed form of the innermost loop: entries (i, j, c) with c < P hold the
draws k, k+1, ..., in order, every other entry is untouched, and the draw
index advances by P. -/
theorem fillInner_spec (r : Nat → Nat) (i j P : Nat) (t : Table3) (k : Nat) :
    fillInner r i j P (t, k) =
      ((fun a b c => if a = i ∧ b = j ∧ c < P then draw r (k + c) else t a b c), k + P) := by
  induction P with
  | zero =>
    unfold fillInner
    rw [List.range_zero, List.foldl_nil]
    have hf : (fun a b c => if a = i ∧ b = j ∧ c < 0 then draw r (k + c) else t a b c) = t := by
      funext a b c
      simp
    rw [hf]
    rfl
  | succ P ih =>
    rw [fillInner_succ, ih]
    have hf : update3
          (fun a b c => if a = i ∧ b = j ∧ c < P then draw r (k + c) else t a b c) i j P
          (draw r (k + P)) =
        (fun a b c => if a = i ∧ b = j ∧ c < P + 1 then draw r (k + c) else t a b c) := by
      funext a b c
      simp only [update3]
      by_cases h1 : a = i ∧ b = j ∧ c = P
      · obtain ⟨ha, hb, hc⟩ := h1
        subst ha
        subst hb
        subst hc
        simp [Nat.lt_succ_self]
      · rw [if_neg h1]
        by_cases h2 : a = i ∧ b = j ∧ c < P
        · obtain ⟨ha, hb, hc⟩ := h2
          rw [if_pos ⟨ha, hb, hc⟩, if_pos ⟨ha, hb, by omega⟩]
        · have h3 : ¬(a = i ∧ b = j ∧ c < P + 1) := by
            intro hcon
            obtain ⟨ha, hb, hc⟩ := hcon
            have hcP : c ≠ P := fun hc2 => h1 ⟨ha, hb, hc2⟩
            exact h2 ⟨ha, hb, by omega⟩
          rw [if_neg h2, if_neg h3]
    rw [hf]
    rfl

/-- Unfolding step of the middle loop. -/
theorem fillMid_succ (r : Nat → Nat) (i C P : Nat) (st : Table3 × Nat) :
    fillMid r i (C + 1) P st = fillInner r i C P (fillMid r i C P st) := by
  unfold fillMid
  rw [List.range_succ, List.foldl_append, List.foldl_cons, List.foldl_nil]

/-- Closed form of the middle loop: entries (i, b, c) with b < C and c < P
hold the draws in row-major order starting at k, every other entry is
untouched, and the draw index advances by C * P. -/
theorem fillMid_spec (r : Nat → Nat) (i C P : Nat) (t : Table3) (k : Nat) :
    fillMid r i C P (t, k) =
      ((fun a b c => if a = i ∧ b < C ∧ c < P then draw r (k + b * P + c) else t a b c),
        k + C * P) := by
  induction C with
  | zero =>
    unfold fillMid
    rw [List.range_zero, List.foldl_nil]
    have hf : (fun a b c => if a = i ∧ b < 0 ∧ c < P then draw r (k + b * P + c) else t a b c)
        = t := by
      funext a b c
      simp
    rw [hf, Nat.zero_mul]
    rfl
  | succ C ih =>
    rw [fillMid_succ, ih, fillInner_spec]
    have hcnt : k + C * P + P = k + (C + 1) * P := by
      rw [Nat.succ_mul]
      omega
    have hf : (fun a b c =>
          if a = i ∧ b = C ∧ c < P then draw r (k + C * P + c)
          else if a = i ∧ b < C ∧ c < P then draw r (k + b * P + c) else t a b c) =
        (fun a b c => if a = i ∧ b < C + 1 ∧ c < P then draw r (k + b * P + c) else t a b c) := by
      funext a b c
      by_cases h1 : a = i ∧ b = C ∧ c < P
      · obtain ⟨ha, hb, hc⟩ := h1
        rw [ha, hb, if_pos ⟨rfl, rfl, hc⟩, if_pos ⟨rfl, Nat.lt_succ_self C, hc⟩]
      · rw [if_neg h1]
        by_cases h2 : a = i ∧ b < C ∧ c < P
        · obtain ⟨ha, hb, hc⟩ := h2
          rw [if_pos ⟨ha, hb, hc⟩, if_pos ⟨ha, by omega, hc⟩]
        · have h3 : ¬(a = i ∧ b < C + 1 ∧ c < P) := by
            intro hcon
            obtain ⟨ha, hb, hc⟩ := hcon
            have hbC : b ≠ C := fun hb2 => h1 ⟨ha, hb2, hc⟩
            exact h2 ⟨ha, by omega, hc⟩
          rw [if_neg h2, if_neg h3]
    rw [hf, hcnt]

/-- Unfolding step of the outer loop. -/
theorem fillLoop_succ (r : Nat → Nat) (S C P : Nat) (st : Table3 × Nat) :
    fillLoop r (S + 1) C P st = fillMid r S C P (fillLoop r S C P st) := by
  unfold fillLoop
  rw [List.range_succ, List.foldl_append, List.foldl_cons, List.foldl_nil]

/-- Closed form of the full triple loop: entry (a, b, c) inside the bounds
holds the draw whose index is the flat row-major rank of the triple, offset
by the starting draw index k, and the draw index advances by S * C * P. -/
theorem fillLoop_spec (r : Nat → Nat) (S C P : Nat) (t : Table3) (k : Nat) :
    fillLoop r S C P (t, k) =
      ((fun a b c =>
          if a < S ∧ b < C ∧ c < P then draw r (k + (a * C + b) * P + c) else t a b c),
        k + S * (C * P)) := by
  induction S with
  | zero =>
    unfold fillLoop
    rw [List.range_zero, List.foldl_nil]
    have hf : (fun a b c =>
          if a < 0 ∧ b < C ∧ c < P then draw r (k + (a * C + b) * P + c) else t a b c) = t := by
      funext a b c
      simp
    rw [hf, Nat.zero_mul]
    rfl
  | succ S ih =>
    rw [fillLoop_succ, ih, fillMid_spec]
    have hcnt : k + S * (C * P) + C * P = k + (S + 1) * (C * P) := by
      rw [Nat.succ_mul]
      omega
    have hf : (fun a b c =>
          if a = S ∧ b < C ∧ c < P then draw r (k + S * (C * P) + b * P + c)
          else if a < S ∧ b < C ∧ c < P then draw r (k + (a * C + b) * P + c) else t a b c) =
        (fun a b c =>
          if a < S + 1 ∧ b < C ∧ c < P then draw r (k + (a * C + b) * P + c) else t a b c) := by
      funext a b c
      by_cases h1 : a = S ∧ b < C ∧ c < P
      · obtain ⟨ha, hb, hc⟩ := h1
        have harith : k + S * (C * P) + b * P + c = k + (S * C + b) * P + c := by ring
        rw [ha, if_pos ⟨rfl, hb, hc⟩, if_pos ⟨Nat.lt_succ_self S, hb, hc⟩, harith]
      · rw [if_neg h1]
        by_cases h2 : a < S ∧ b < C ∧ c < P
        · obtain ⟨ha, hb, hc⟩ := h2
          rw [if_pos ⟨ha, hb, hc⟩, if_pos ⟨by omega, hb, hc⟩]
        · have h3 : ¬(a < S + 1 ∧ b < C ∧ c < P) := by
            intro hcon
            obtain ⟨ha, hb, hc⟩ := hcon
            have haS : a ≠ S := fun ha2 => h1 ⟨ha2, hb, hc⟩
            exact h2 ⟨by omega, hb, hc⟩
          rw [if_neg h2, if_neg h3]
    rw [hf, hcnt]

/-- Board entries of the built table: the entry at (sq, c, pt) is the draw
whose index is the flat row-major rank of the triple. -/
theorem buildTable_board (r : Nat → Nat) (sq c pt : Nat)
    (h1 : sq < Square.NUM) (h2 : c < Color.NUM) (h3 : pt < PieceType.NUM) :
    (buildTable r).board sq c pt = draw r ((sq * Color.NUM + c) * PieceType.NUM + pt) := by
  simp only [buildTable]
  rw [fillLoop_spec]
  simp [h1, h2, h3]

/-- Hand entries of the built table: the entry at (c, pt, num) is the draw
whose index continues after all board draws, at the flat row-major rank of
the triple. -/
theorem buildTable_hands (r : Nat → Nat) (c pt num : Nat)
    (h1 : c < Color.NUM) (h2 : pt < PieceType.NUM_HAND)
    (h3 : num < ZobristTable.MAX_HAND_NUM + 1) :
    (buildTable r).hands c pt num =
      draw r (Square.NUM * (Color.NUM * PieceType.NUM)
        + (c * PieceType.NUM_HAND + pt) * (ZobristTable.MAX_HAND_NUM + 1) + num) := by
  simp only [buildTable]
  rw [fillLoop_spec, fillLoop_spec]
  simp [h1, h2, h3]

/-- Parity helper: masking with an even number yields an even result. -/
theorem land_even_of_even (x m : Nat) (hm : m % 2 = 0) : (x &&& m) % 2 = 0 := by
  have h := Nat.testBit_land x m 0
  have h2 : m.testBit 0 = false := by
    rw [Nat.testBit_zero]
    simp [hm]
  rw [h2, Bool.and_false, Nat.testBit_zero] at h
  have h3 : ¬((x &&& m) % 2 = 1) := by
    intro hc
    rw [hc] at h
    simp at h
  omega

/-- Parity helper: XOR with an even number preserves the lowest bit. -/
theorem xor_even_mod_two (k e : Nat) (he : e % 2 = 0) : (k ^^^ e) % 2 = k % 2 := by
  have h := Nat.testBit_xor k e 0
  have h2 : e.testBit 0 = false := by
    rw [Nat.testBit_zero]
    simp [he]
  rw [h2, Bool.xor_false, Nat.testBit_zero, Nat.testBit_zero] at h
  simp only [decide_eq_decide] at h
  omega

/-- Parity helper: every draw stored in the table is even, since the side
bit is cleared by the mask. -/
theorem draw_even (r : Nat → Nat) (k : Nat) : (draw r k).val % 2 = 0 := by
  have hmask : (Key.not Key.COLOR).val = 2 ^ 64 - 2 := by decide
  show ((r k % 2 ^ 64) &&& (Key.not Key.COLOR).val) % 2 = 0
  rw [hmask]
  exact land_even_of_even _ _ (by decide)

/-- Claim C2: every constant stored in the singleton table, board and hand
alike, has its designated side-to-move bit (bit 0) equal to zero, and the
reserved side-to-move constant Key.COLOR has raw value exactly 1; hence
XOR-combining any board or hand constant never changes a key's lowest bit,
while XOR with the side toggle flips exactly the lowest bit. -/
theorem zobrist_table_side_bit (sq c pt hc hpt num : Nat) (k : Key)
    (h1 : sq < Square.NUM) (h2 : c < Color.NUM) (h3 : pt < PieceType.NUM)
    (h4 : hc < Color.NUM) (h5 : hpt < PieceType.NUM_HAND)
    (h6 : num ≤ ZobristTable.MAX_HAND_NUM) :
    (ZOBRIST_TABLE.board sq c pt).val % 2 = 0
    ∧ (ZOBRIST_TABLE.hands hc hpt num).val % 2 = 0
    ∧ Key.COLOR.val = 1
    ∧ (Key.bitxor k (ZOBRIST_TABLE.board sq c pt)).val % 2 = k.val % 2
    ∧ (Key.bitxor k (ZOBRIST_TABLE.hands hc hpt num)).val % 2 = k.val % 2
    ∧ (Key.bitxor k Key.COLOR).val.testBit 0 = !(k.val.testBit 0)
    ∧ ∀ i : Nat, i ≠ 0 → (Key.bitxor k Key.COLOR).val.testBit i = k.val.testBit i := by
  have hb := buildTable_board (stdRngStream 2022) sq c pt h1 h2 h3
  have hh := buildTable_hands (stdRngStream 2022) hc hpt num h4 h5 (by omega)
  have hbe : (ZOBRIST_TABLE.board sq c pt).val % 2 = 0 := by
    show ((buildTable (stdRngStream 2022)).board sq c pt).val % 2 = 0
    rw [hb]
    exact draw_even _ _
  have hhe : (ZOBRIST_TABLE.hands hc hpt num).val % 2 = 0 := by
    show ((buildTable (stdRngStream 2022)).hands hc hpt num).val % 2 = 0
    rw [hh]
    exact draw_even _ _
  refine ⟨hbe, hhe, rfl, ?_, ?_, ?_, ?_⟩
  · exact xor_even_mod_two k.val _ hbe
  · exact xor_even_mod_two k.val _ hhe
  · show (k.val ^^^ (1 : Nat)).testBit 0 = !(k.val.testBit 0)
    rw [Nat.testBit_xor]
    simp
  · intro i hi
    show (k.val ^^^ (1 : Nat)).testBit i = k.val.testBit i
    rw [Nat.testBit_xor]
    have h1i : (1 : Nat).testBit i = false := by
      cases i with
      | zero => exact absurd rfl hi
      | succ n => simp [Nat.testBit_succ]
    rw [h1i, Bool.xor_false]

/-- Witness for C2 at index (0,0,0), hand index (0,0,0), and the key 0. -/
theorem zobrist_table_side_bit_witness :
    (0 < Square.NUM ∧ 0 < Color.NUM ∧ 0 < PieceType.NUM ∧ 0 < PieceType.NUM_HAND
      ∧ 0 ≤ ZobristTable.MAX_HAND_NUM)
    ∧ (ZOBRIST_TABLE.board 0 0 0).val % 2 = 0
    ∧ (ZOBRIST_TABLE.hands 0 0 0).val % 2 = 0 := by
  have h := zobrist_table_side_bit 0 0 0 0 0 0 Key.ZERO (by decide) (by decide) (by decide)
    (by decide) (by decide) (by decide)
  exact ⟨⟨by decide, by decide, by decide, by decide, by decide⟩, h.1, h.2.1⟩

/-- Claim C3: the table build initializes the deterministic generator from
the fixed seed 2022, draws one value per (square, color, pieceType) triple
in that nesting order with the side bit cleared into the board array, and
only afterwards draws one value per (color, handPieceType, count) triple
with count in [0, 18] in that nesting order with the side bit cleared into
the hand array: the entry of each triple is the draw at its flat row-major
rank, with all hand draws offset past the board draws. -/
theorem zobrist_table_build_order (r : Nat → Nat) (sq c pt hc hpt num : Nat)
    (h1 : sq < Square.NUM) (h2 : c < Color.NUM) (h3 : pt < PieceType.NUM)
    (h4 : hc < Color.NUM) (h5 : hpt < PieceType.NUM_HAND)
    (h6 : num ≤ ZobristTable.MAX_HAND_NUM) :
    ZOBRIST_TABLE = buildTable (stdRngStream 2022)
    ∧ (buildTable r).board sq c pt =
        Key.bitand (Key.mk (r ((sq * Color.NUM + c) * PieceType.NUM + pt) % 2 ^ 64))
          (Key.not Key.COLOR)
    ∧ (buildTable r).hands hc hpt num =
        Key.bitand
          (Key.mk (r (Square.NUM * (Color.NUM * PieceType.NUM)
              + (hc * PieceType.NUM_HAND + hpt) * (ZobristTable.MAX_HAND_NUM + 1) + num)
            % 2 ^ 64))
          (Key.not Key.COLOR) :=
  ⟨rfl, buildTable_board r sq c pt h1 h2 h3,
    buildTable_hands r hc hpt num h4 h5 (by omega)⟩

/-- Witness for C3 on the identity stream at the first board and hand
triples. -/
theorem zobrist_table_build_order_witness :
    (0 < Square.NUM ∧ 0 < Color.NUM ∧ 0 < PieceType.NUM ∧ 0 < PieceType.NUM_HAND
      ∧ 0 ≤ ZobristTable.MAX_HAND_NUM)
    ∧ (buildTable (fun n => n)).board 0 0 0 =
        Key.bitand (Key.mk (((0 * Color.NUM + 0) * PieceType.NUM + 0) % 2 ^ 64))
          (Key.not Key.COLOR) := by
  have h := zobrist_table_build_order (fun n => n) 0 0 0 0 0 0 (by decide) (by decide)
    (by decide) (by decide) (by decide) (by decide)
  exact ⟨⟨by decide, by decide, by decide, by decide, by decide⟩, h.2.1⟩

/-- Claim C4: the table build takes no inputs beyond the fixed seed stream
and is deterministic: any two tables produced by it agree, entry by entry,
on every board index and every hand index. -/
theorem zobrist_table_deterministic (t1 t2 : ZobristTable)
    (h1 : t1 = buildTable (stdRngStream 2022)) (h2 : t2 = buildTable (stdRngStream 2022)) :
    (∀ sq c pt : Nat, t1.board sq c pt = t2.board sq c pt)
    ∧ (∀ c pt num : Nat, t1.hands c pt num = t2.hands c pt num) := by
  subst h1
  subst h2
  exact ⟨fun _ _ _ => rfl, fun _ _ _ => rfl⟩

/-- Witness for C4: the singleton table is itself a build result, so two
references to the build agree at the first board entry. -/
theorem zobrist_table_deterministic_witness :
    (buildTable (stdRngStream 2022)).board 0 0 0 = ZOBRIST_TABLE.board 0 0 0 :=
  (zobrist_table_deterministic (buildTable (stdRngStream 2022)) ZOBRIST_TABLE rfl rfl).1 0 0 0

/-- Claim C5: the hand-constant lookup is total for every color, every
hand-eligible piece type, and every count in [0, 18], returning the stored
constant; for a count above 18 it fails fast (the out-of-bounds array index
panics, modelled by none) instead of clamping the count or returning a
valid constant. -/
theorem zobrist_hand_lookup (t : ZobristTable) (c pt num : Nat)
    (hc : c < Color.NUM) (hpt : pt < PieceType.NUM_HAND) :
    (num ≤ ZobristTable.MAX_HAND_NUM → t.hand c pt num = some (t.hands c pt num))
    ∧ (ZobristTable.MAX_HAND_NUM < num → t.hand c pt num = none) := by
  constructor
  · intro hnum
    rw [ZobristTable.hand, if_pos ⟨hc, hpt, by omega⟩]
  · intro hnum
    rw [ZobristTable.hand, if_neg ?_]
    intro hcon
    obtain ⟨-, -, hlt⟩ := hcon
    omega

/-- Witness for C5: count 18 succeeds and count 19 fails on the singleton
table at color 0, hand piece type 0. -/
theorem zobrist_hand_lookup_witness :
    (0 < Color.NUM ∧ 0 < PieceType.NUM_HAND)
    ∧ ZOBRIST_TABLE.hand 0 0 18 = some (ZOBRIST_TABLE.hands 0 0 18)
    ∧ ZOBRIST_TABLE.hand 0 0 19 = none := by
  have h18 := zobrist_hand_lookup ZOBRIST_TABLE 0 0 18 (by decide) (by decide)
  have h19 := zobrist_hand_lookup ZOBRIST_TABLE 0 0 19 (by decide) (by decide)
  exact ⟨⟨by decide, by decide⟩, h18.1 (by decide), h19.2 (by decide)⟩
